import Mathlib

/-!
Shallow embedding of the ARS (Augmented Random Search) BipedalWalker trainer.

Source: `bipedal_walker.ipynb` — classes `Hp`, `Normalizer`, `Policy`, `ArsAgent`.

Modelling conventions:
* NumPy float arithmetic is modelled over `ℚ` (exact arithmetic).
* Per-dimension NumPy arrays become functions `Fin d → ℚ`; the policy weight
  matrix becomes `Matrix (Fin output) (Fin input) ℚ`.
* `np.sqrt` has no exact rational counterpart, so every definition that takes a
  square root is parameterised by an abstract `sqrtFn : ℚ → ℚ`.
* Float division by zero produces a non-finite value in NumPy; fallible
  divisions are modelled with `Option`, `none` signalling the numeric fault.
* The external gym environment is modelled as an explicit collaborator record
  (`GymEnv`), as the spec directs for the interface boundary.
-/

set_option maxHeartbeats 1000000

/-- Hyperparameters, from class `Hp.__init__` (default values in `hpDefault`).
`env_name` (a string) is omitted; all numeric fields are kept. -/
structure Hp where
  num_steps : ℕ
  episode_length : ℕ
  num_deltas : ℕ
  num_best_deltas : ℕ
  record_every : ℕ
  seed : ℕ
  noise : ℚ
  alpha : ℚ
deriving DecidableEq

/-- Default hyperparameter values of `Hp.__init__`
(noise = 0.03, alpha = 0.02). -/
def hpDefault : Hp :=
  { num_steps := 1500, episode_length := 3000, num_deltas := 20,
    num_best_deltas := 20, record_every := 100, seed := 42,
    noise := 3/100, alpha := 1/50 }

/-- State of class `Normalizer`: per-dimension arrays `n`, `mean`,
`mean_diff`, `variance`. -/
structure Normalizer (d : ℕ) where
  n : Fin d → ℚ
  mean : Fin d → ℚ
  mean_diff : Fin d → ℚ
  variance : Fin d → ℚ
deriving DecidableEq

/-- Embedding of `Normalizer.__init__(num_inputs)`: all four arrays start as zeros. -/
def Normalizer.init (d : ℕ) : Normalizer d :=
  { n := fun _ => 0, mean := fun _ => 0, mean_diff := fun _ => 0,
    variance := fun _ => 0 }

/-- Embedding of `Normalizer.observe(x)`:
`n += 1; last_mean = mean.copy(); mean += (x - mean) / n;`
`mean_diff += (x - last_mean) * (x - mean);`
`variance = (mean_diff / n).clip(min=1e-2)` — `.clip(min=c)` is an
elementwise `max · c`. -/
def Normalizer.observe {d : ℕ} (st : Normalizer d) (x : Fin d → ℚ) :
    Normalizer d :=
  { n := fun i => st.n i + 1
    mean := fun i => st.mean i + (x i - st.mean i) / (st.n i + 1)
    mean_diff := fun i =>
      st.mean_diff i +
        (x i - st.mean i) * (x i - (st.mean i + (x i - st.mean i) / (st.n i + 1)))
    variance := fun i =>
      max ((st.mean_diff i +
        (x i - st.mean i) * (x i - (st.mean i + (x i - st.mean i) / (st.n i + 1)))) /
          (st.n i + 1)) (1/100) }

/-- Embedding of `Normalizer.normalize(inputs)`: `(inputs - mean) / np.sqrt(variance)`.
`np.sqrt` is abstracted as `sqrtFn`. -/
def Normalizer.normalize {d : ℕ} (sqrtFn : ℚ → ℚ) (st : Normalizer d)
    (inputs : Fin d → ℚ) : Fin d → ℚ :=
  fun i => (inputs i - st.mean i) / sqrtFn (st.variance i)

/-- Feeding a whole sequence of observations, one `observe` at a time. -/
def Normalizer.observeAll {d : ℕ} (st : Normalizer d)
    (xs : List (Fin d → ℚ)) : Normalizer d :=
  xs.foldl Normalizer.observe st

/-- The two perturbation directions, the strings `'+'` and `'-'` in the
source (`Policy.evaluate`, `ArsAgent.train`). -/
inductive Direction where
  | plus
  | minus
deriving DecidableEq

/-- Embedding of `Policy.evaluate(input, delta=None, direction=None)`: with no direction,
`theta.dot(input)`; with `'+'`, `(theta + noise * delta).dot(input)`; with
`'-'`, `(theta - noise * delta).dot(input)`. A present direction with an
absent delta is a Python `TypeError` (`noise * None`), modelled as `none`. -/
def Policy.evaluate {ni no : ℕ} (hp : Hp) (theta : Matrix (Fin no) (Fin ni) ℚ)
    (input : Fin ni → ℚ) (delta : Option (Matrix (Fin no) (Fin ni) ℚ))
    (direction : Option Direction) : Option (Fin no → ℚ) :=
  match direction, delta with
  | none, _ => some (theta.mulVec input)
  | some Direction.plus, some dlt => some ((theta + hp.noise • dlt).mulVec input)
  | some Direction.minus, some dlt => some ((theta - hp.noise • dlt).mulVec input)
  | some _, none => none

/-- Embedding of `Policy.update(rollouts, sigma_rewards)`:
`step = Σ (r_pos - r_neg) * delta` (a fold, as in the source loop), then
`theta += alpha / (num_best_deltas * sigma_rewards) * step`. The scalar
division is float division; when `num_best_deltas * sigma_rewards = 0` it is
a division by zero producing a non-finite value, modelled as `none`. -/
def Policy.update {ni no : ℕ} (hp : Hp) (theta : Matrix (Fin no) (Fin ni) ℚ)
    (rollouts : List (ℚ × ℚ × Matrix (Fin no) (Fin ni) ℚ)) (sigma : ℚ) :
    Option (Matrix (Fin no) (Fin ni) ℚ) :=
  if (hp.num_best_deltas : ℚ) * sigma = 0 then none
  else
    some (theta +
      (hp.alpha / ((hp.num_best_deltas : ℚ) * sigma)) •
        rollouts.foldl (fun s t => s + (t.1 - t.2.1) • t.2.2) 0)

/-- Embedding of the line in `ArsAgent.__init__`:
`self.hp.episode_length = self.env.spec.timestep_limit or self.hp.episode_length`.
Python `or` keeps the left operand when it is truthy, i.e. the environment's
limit replaces the configured one exactly when it is not `None` and not `0`. -/
def effectiveEpisodeLength (configured : ℕ) (envLimit : Option ℕ) : ℕ :=
  match envLimit with
  | none => configured
  | some l => if l = 0 then configured else l

/-- Reward clamping `reward = max(min(reward, 1), -1)` from `ArsAgent.explore`. -/
def clampReward (r : ℚ) : ℚ :=
  max (min r 1) (-1)

/-- External gym environment collaborator: `reset` yields the initial hidden
state and first observation, `step` consumes an action and yields the next
hidden state, next observation, reward and `done` flag. -/
structure GymEnv (σ : Type) (ni no : ℕ) where
  reset : σ × (Fin ni → ℚ)
  step : σ → (Fin no → ℚ) → σ × (Fin ni → ℚ) × ℚ × Bool

/-- Loop body of `ArsAgent.explore`:
`while not done and num_plays < episode_length:` — `fuel` is the number of
plays still allowed. Each pass observes the raw state, normalizes it,
evaluates the policy, steps the environment, clamps the reward and
accumulates it into `acc`. Alongside the accumulated (clamped) total the
embedding also returns the final normalizer state and, as a ghost trace, the
list of raw (pre-clamp) rewards returned by the environment. A `none` result
models the Python fault of `evaluate` returning `None` for a direction
without a delta. -/
def ArsAgent.exploreLoop {σ : Type} {ni no : ℕ} (env : GymEnv σ ni no)
    (hp : Hp) (sqrtFn : ℚ → ℚ) (theta : Matrix (Fin no) (Fin ni) ℚ)
    (delta : Option (Matrix (Fin no) (Fin ni) ℚ))
    (direction : Option Direction) :
    ℕ → σ → (Fin ni → ℚ) → Normalizer ni → ℚ →
      Option (ℚ × Normalizer ni × List ℚ)
  | 0, _, _, norm, acc => some (acc, norm, [])
  | fuel + 1, s, state, norm, acc =>
    match Policy.evaluate hp theta
        (Normalizer.normalize sqrtFn (norm.observe state) state)
        delta direction with
    | none => none
    | some action =>
      match env.step s action with
      | (s2, state2, reward, done) =>
        if done then
          some (acc + clampReward reward, norm.observe state, [reward])
        else
          match ArsAgent.exploreLoop env hp sqrtFn theta delta direction
              fuel s2 state2 (norm.observe state) (acc + clampReward reward) with
          | none => none
          | some (tot, nm, tr) => some (tot, nm, reward :: tr)

/-- Embedding of `ArsAgent.explore(direction, delta)`: reset the environment, then run the
while-loop with `num_plays = 0`, `sum_rewards = 0` and the step cap
`hp.episode_length`. -/
def ArsAgent.explore {σ : Type} {ni no : ℕ} (env : GymEnv σ ni no)
    (hp : Hp) (sqrtFn : ℚ → ℚ) (theta : Matrix (Fin no) (Fin ni) ℚ)
    (delta : Option (Matrix (Fin no) (Fin ni) ℚ))
    (direction : Option Direction) (norm : Normalizer ni) :
    Option (ℚ × Normalizer ni × List ℚ) :=
  ArsAgent.exploreLoop env hp sqrtFn theta delta direction
    hp.episode_length env.reset.1 env.reset.2 norm 0

/-- Scoring `scores = {k: max(r_pos, r_neg) ...}` from `ArsAgent.train`. -/
def ArsAgent.scoreOf (pos neg : ℕ → ℚ) : ℕ → ℚ :=
  fun k => max (pos k) (neg k)

/-- Selection `order = sorted(scores.keys(), key=lambda x: scores[x], reverse=True)[:num_best_deltas]`
from `ArsAgent.train`. Python's `sorted` with `reverse=True` is the stable
descending sort; `List.insertionSort` with the non-strict by-score relation
is stable in the same way (on ties `orderedInsert` places the
earlier-inserted, i.e. earlier-index, element first), so it embeds it. -/
def ArsAgent.selectOrder (scores : ℕ → ℚ) (numDeltas numBest : ℕ) : List ℕ :=
  (List.insertionSort (fun i j => scores j ≤ scores i)
    (List.range numDeltas)).take numBest

/-- Spec-side ordering relation, from the spec's words: descending by score,
ties between equal scores broken by original index order. -/
def specTieRel (scores : ℕ → ℚ) (i j : ℕ) : Prop :=
  scores j < scores i ∨ (scores i = scores j ∧ i ≤ j)

instance (scores : ℕ → ℚ) : DecidableRel (specTieRel scores) :=
  fun i j =>
    inferInstanceAs (Decidable (scores j < scores i ∨ (scores i = scores j ∧ i ≤ j)))

/-- Spec-side selection (modelled from the spec's words, for comparison with
`ArsAgent.selectOrder`): sort the indices by the explicit
score-descending/index-ascending tie-break relation, take the top
`numBest`. -/
def ArsAgent.specOrder (scores : ℕ → ℚ) (numDeltas numBest : ℕ) : List ℕ :=
  (List.insertionSort (specTieRel scores) (List.range numDeltas)).take numBest

/-- Population variance of a list, the quantity under the square root in
`np.array(...).std()` (mean of squared deviations from the mean). -/
def popVar (l : List ℚ) : ℚ :=
  (l.map (fun x => (x - l.sum / l.length) ^ 2)).sum / l.length

/-- Population standard deviation `np.array(pos_rewards + neg_rewards).std()`,
with `np.sqrt` abstracted as `sqrtFn`. -/
def popStd (sqrtFn : ℚ → ℚ) (l : List ℚ) : ℚ :=
  sqrtFn (popVar l)

/-- One iteration of `ArsAgent.train` after the rollouts have produced the
reward pairs: `sigma_rewards = np.array(pos_rewards + neg_rewards).std()`;
`scores`; `order`; `rollouts = [(pos[k], neg[k], deltas[k]) for k in order]`;
`self.policy.update(rollouts, sigma_rewards)`. The update call is
unconditional — the source has no guard on `sigma_rewards`. -/
def ArsAgent.trainIteration {ni no : ℕ} (hp : Hp) (sqrtFn : ℚ → ℚ)
    (theta : Matrix (Fin no) (Fin ni) ℚ) (pos neg : ℕ → ℚ)
    (deltas : ℕ → Matrix (Fin no) (Fin ni) ℚ) :
    Option (Matrix (Fin no) (Fin ni) ℚ) :=
  Policy.update hp theta
    ((ArsAgent.selectOrder (ArsAgent.scoreOf pos neg)
        hp.num_deltas hp.num_best_deltas).map
      (fun k => (pos k, neg k, deltas k)))
    (popStd sqrtFn
      ((List.range hp.num_deltas).map pos ++ (List.range hp.num_deltas).map neg))

/-- Hyperparameters of the spec's degenerate-reward end-to-end scenario:
`num_deltas = 2`, `num_best_deltas = 1`. -/
def hpScenario : Hp :=
  { hpDefault with num_steps := 1, num_deltas := 2, num_best_deltas := 1 }

/-- Stub environment of the spec's reward-clamping scenario: one observed
dimension, one action dimension, every step returns reward `5` and
terminates immediately. -/
def stubEnv : GymEnv Unit 1 1 :=
  { reset := ((), fun _ => 0)
    step := fun _ _ => ((), fun _ => 0, 5, true) }

/-- Normalizer state after the stub environment's single observation. -/
def normAfterStub : Normalizer 1 :=
  (Normalizer.init 1).observe (fun _ => 0)

/-- Hyperparameters for exercising the stub environment: a step cap of one
play (the stub terminates after its first step anyway). -/
def hpStub : Hp :=
  { hpDefault with episode_length := 1 }

/-- Helper: variance is floored at `1e-2` by the `.clip(min=1e-2)` in
`Normalizer.observe`. -/
lemma variance_floor_observe {d : ℕ} (st : Normalizer d) (x : Fin d → ℚ)
    (i : Fin d) : 1/100 ≤ (st.observe x).variance i :=
  le_max_right _ _

/-- Helper: the variance floor holds after feeding any nonempty observation
sequence, from any starting state. -/
lemma variance_floor_observeAll {d : ℕ} :
    ∀ (xs : List (Fin d → ℚ)) (st : Normalizer d), xs ≠ [] → ∀ i : Fin d,
      1/100 ≤ (st.observeAll xs).variance i := by
  intro xs
  induction xs with
  | nil => intro st h; exact absurd rfl h
  | cons x xs ih =>
    intro st _ i
    cases xs with
    | nil => exact variance_floor_observe st x i
    | cons y ys => exact ih (st.observe x) (by simp) i

/-- Helper: running count and running mean after feeding a sequence of
observations. The count grows by the number of observations, and
`mean * count` tracks the running sum (Welford recurrence unrolled). -/
lemma observeAll_stats {d : ℕ} :
    ∀ (xs : List (Fin d → ℚ)) (st : Normalizer d) (i : Fin d), 0 ≤ st.n i →
      (st.observeAll xs).n i = st.n i + xs.length ∧
      (st.observeAll xs).mean i * (st.n i + xs.length) =
        st.mean i * st.n i + (xs.map (fun x => x i)).sum := by
  intro xs
  induction xs with
  | nil => intro st i _; simp [Normalizer.observeAll]
  | cons x xs ih =>
    intro st i hn
    have hne : st.n i + 1 ≠ 0 := by positivity
    have hstep : (st.observe x).n i = st.n i + 1 := rfl
    have hobs : st.observeAll (x :: xs) = (st.observe x).observeAll xs := rfl
    obtain ⟨h1, h2⟩ := ih (st.observe x) i (by rw [hstep]; linarith)
    constructor
    · rw [hobs, h1, hstep]
      simp only [List.length_cons]
      push_cast
      ring
    · have hmean : (st.observe x).mean i * ((st.observe x).n i) =
          st.mean i * st.n i + x i := by
        show (st.mean i + (x i - st.mean i) / (st.n i + 1)) * (st.n i + 1) =
          st.mean i * st.n i + x i
        rw [add_mul, div_mul_cancel₀ _ hne]
        ring
      rw [hobs]
      simp only [List.length_cons, List.map_cons, List.sum_cons]
      push_cast
      have e1 : st.n i + ((xs.length : ℚ) + 1) = (st.observe x).n i + xs.length := by
        rw [hstep]; ring
      rw [e1, h2, hmean]
      ring

/-- C7: for every sequence of observations fed to a normalizer — indeed from
any normalizer state whatsoever — every `observe` call leaves
`variance[i] >= 0.01` in all dimensions `i`. -/
theorem normalizer_variance_floor_each_observe {d : ℕ} :
    ∀ (st : Normalizer d) (x : Fin d → ℚ) (i : Fin d),
      1/100 ≤ (st.observe x).variance i :=
  fun st x i => variance_floor_observe st x i

/-- C2 (counterexample): a freshly constructed normalizer, on which `observe`
has never been called, has `variance = 0 < epsilon = 0.01` — `__init__` fills
`variance` with zeros and the `1e-2` floor is only applied inside `observe`.
So the claimed "at every point in the lifetime" invariant fails before the
first `observe` (and `normalize` would divide by `sqrt(0) = 0` there). -/
theorem normalizer_fresh_variance_zero :
    (Normalizer.init 1).variance 0 = 0 ∧
    ¬ ((1:ℚ)/100 ≤ (Normalizer.init 1).variance 0) := by
  constructor
  · rfl
  · show ¬ ((1:ℚ)/100 ≤ 0)
    norm_num

/-- C2 (amended): once `observe` has been called at least once, every
dimension satisfies `variance[i] >= 0.01` at every later point of the
normalizer's lifetime. -/
theorem normalizer_variance_floor_after_observing {d : ℕ}
    (xs : List (Fin d → ℚ)) (h : xs ≠ []) (i : Fin d) :
    1/100 ≤ ((Normalizer.init d).observeAll xs).variance i :=
  variance_floor_observeAll xs (Normalizer.init d) h i

theorem normalizer_variance_floor_after_observing_witness :
    (([fun _ => 0] : List (Fin 1 → ℚ)) ≠ []) ∧
    1/100 ≤ ((Normalizer.init 1).observeAll [fun _ => 0]).variance 0 :=
  ⟨by simp, normalizer_variance_floor_after_observing [fun _ => 0] (by simp) 0⟩

/-- C6: feeding `k >= 1` observations to a fresh normalizer leaves every
dimension's count at `k` and every dimension's mean at the exact arithmetic
mean of the observations (exact arithmetic over `ℚ`). -/
theorem normalizer_mean_is_arithmetic_mean {d : ℕ} (xs : List (Fin d → ℚ))
    (h : xs ≠ []) (i : Fin d) :
    ((Normalizer.init d).observeAll xs).n i = xs.length ∧
    ((Normalizer.init d).observeAll xs).mean i =
      (xs.map (fun x => x i)).sum / xs.length := by
  obtain ⟨h1, h2⟩ := observeAll_stats xs (Normalizer.init d) i (le_refl 0)
  have hlen : (xs.length : ℚ) ≠ 0 :=
    Nat.cast_ne_zero.mpr (fun hl => h (List.length_eq_zero.mp hl))
  constructor
  · simpa [Normalizer.init] using h1
  · rw [eq_div_iff hlen]
    have hzn : (Normalizer.init d).n i = 0 := rfl
    have hzm : (Normalizer.init d).mean i = 0 := rfl
    rw [hzn, hzm, zero_add] at h2
    rw [h2]
    ring

theorem normalizer_mean_is_arithmetic_mean_witness :
    (([![(1:ℚ), 2], ![3, 4]] : List (Fin 2 → ℚ)) ≠ []) ∧
    (((Normalizer.init 2).observeAll [![(1:ℚ), 2], ![3, 4]]).n 0 =
      ([![(1:ℚ), 2], ![3, 4]] : List (Fin 2 → ℚ)).length ∧
     ((Normalizer.init 2).observeAll [![(1:ℚ), 2], ![3, 4]]).mean 0 =
      (([![(1:ℚ), 2], ![3, 4]] : List (Fin 2 → ℚ)).map (fun x => x 0)).sum /
        ([![(1:ℚ), 2], ![3, 4]] : List (Fin 2 → ℚ)).length) :=
  ⟨by simp, normalizer_mean_is_arithmetic_mean [![(1:ℚ), 2], ![3, 4]] (by simp) 0⟩

/-- C10: although the count `n` is stored per dimension, every `observe`
increments all components together, so after any sequence of observations all
components of `n` are equal — each is the number of observations made. -/
theorem normalizer_count_uniform {d : ℕ} (xs : List (Fin d → ℚ)) (i j : Fin d) :
    ((Normalizer.init d).observeAll xs).n i = xs.length ∧
    ((Normalizer.init d).observeAll xs).n i = ((Normalizer.init d).observeAll xs).n j := by
  have hi := (observeAll_stats xs (Normalizer.init d) i (le_refl 0)).1
  have hj := (observeAll_stats xs (Normalizer.init d) j (le_refl 0)).1
  constructor
  · rw [hi]
    exact zero_add _
  · rw [hi, hj]
    rfl

/-- C8: evaluating with no direction gives `weights · input`, and this equals
evaluating with direction Plus (resp. Minus) and a zero delta matrix. -/
theorem evaluate_nodir_eq_zero_delta {ni no : ℕ} (hp : Hp)
    (theta : Matrix (Fin no) (Fin ni) ℚ) (input : Fin ni → ℚ)
    (delta : Option (Matrix (Fin no) (Fin ni) ℚ)) :
    Policy.evaluate hp theta input delta none = some (theta.mulVec input) ∧
    Policy.evaluate hp theta input (some 0) (some Direction.plus) =
      some (theta.mulVec input) ∧
    Policy.evaluate hp theta input (some 0) (some Direction.minus) =
      some (theta.mulVec input) := by
  refine ⟨rfl, ?_, ?_⟩
  · show some ((theta + hp.noise • (0 : Matrix (Fin no) (Fin ni) ℚ)).mulVec input) = _
    rw [smul_zero, add_zero]
  · show some ((theta - hp.noise • (0 : Matrix (Fin no) (Fin ni) ℚ)).mulVec input) = _
    rw [smul_zero, sub_zero]

/-- Helper: a left fold that accumulates `+ f x` is the initial value plus
the sum of the mapped list. -/
lemma foldl_add_map_sum {α M : Type*} [AddCommMonoid M] (f : α → M) :
    ∀ (l : List α) (a : M), l.foldl (fun s x => s + f x) a = a + (l.map f).sum := by
  intro l
  induction l with
  | nil => intro a; simp
  | cons x xs ih => intro a; simp [ih, add_assoc]

/-- C4: for a nonzero `sigma_rewards` (and a policy with a nonzero
`num_best_deltas`, as every constructed configuration has), `update` adds
exactly `alpha / (num_best_deltas * sigma_rewards) * Σ (r_pos - r_neg) * delta`
to the weight matrix; with an empty rollout list the weights are returned
unchanged. -/
theorem policy_update_adds_scaled_step {ni no : ℕ} (hp : Hp)
    (theta : Matrix (Fin no) (Fin ni) ℚ)
    (rollouts : List (ℚ × ℚ × Matrix (Fin no) (Fin ni) ℚ)) (sigma : ℚ)
    (hb : hp.num_best_deltas ≠ 0) (hs : sigma ≠ 0) :
    Policy.update hp theta rollouts sigma =
      some (theta + (hp.alpha / ((hp.num_best_deltas : ℚ) * sigma)) •
        (rollouts.map (fun t => (t.1 - t.2.1) • t.2.2)).sum) ∧
    Policy.update hp theta [] sigma = some theta := by
  have hmul : (hp.num_best_deltas : ℚ) * sigma ≠ 0 :=
    mul_ne_zero (Nat.cast_ne_zero.mpr hb) hs
  constructor
  · simp only [Policy.update, if_neg hmul]
    rw [foldl_add_map_sum (fun t => (t.1 - t.2.1) • t.2.2) rollouts 0, zero_add]
  · simp only [Policy.update, if_neg hmul]
    simp

theorem policy_update_adds_scaled_step_witness :
    (hpDefault.num_best_deltas ≠ 0) ∧ ((1:ℚ) ≠ 0) ∧
    (Policy.update hpDefault (0 : Matrix (Fin 1) (Fin 1) ℚ) [] 1 =
      some ((0 : Matrix (Fin 1) (Fin 1) ℚ) +
        (hpDefault.alpha / ((hpDefault.num_best_deltas : ℚ) * 1)) •
          (([] : List (ℚ × ℚ × Matrix (Fin 1) (Fin 1) ℚ)).map
            (fun t => (t.1 - t.2.1) • t.2.2)).sum) ∧
     Policy.update hpDefault (0 : Matrix (Fin 1) (Fin 1) ℚ) [] 1 = some 0) :=
  ⟨by decide, by norm_num,
    policy_update_adds_scaled_step hpDefault 0 [] 1 (by decide) (by norm_num)⟩

/-- C3 (counterexample): with a configured `episode_length = 3000` and an
environment step limit of `5000`, the code takes the environment's limit —
`timestep_limit or episode_length` keeps any truthy left operand — so the
effective cap is `5000`, not `min 3000 5000 = 3000`, and it exceeds the
configured value. -/
theorem effective_episode_length_not_min :
    effectiveEpisodeLength 3000 (some 5000) = 5000 ∧
    effectiveEpisodeLength 3000 (some 5000) ≠ min 3000 5000 ∧
    ¬ effectiveEpisodeLength 3000 (some 5000) ≤ 3000 := by
  refine ⟨rfl, ?_, ?_⟩ <;> decide

/-- C3 (amended): the effective per-rollout step cap is the environment's
limit whenever the environment exposes one and it is nonzero — even when that
limit is larger than the configured `episode_length` — and the configured
`episode_length` only when the environment exposes no limit (or a zero
one). -/
theorem effective_episode_length_rule :
    (∀ cfg : ℕ, effectiveEpisodeLength cfg none = cfg) ∧
    (∀ cfg : ℕ, effectiveEpisodeLength cfg (some 0) = cfg) ∧
    (∀ cfg l : ℕ, l ≠ 0 → effectiveEpisodeLength cfg (some l) = l) := by
  refine ⟨fun cfg => rfl, fun cfg => rfl, fun cfg l hl => ?_⟩
  simp [effectiveEpisodeLength, hl]

theorem effective_episode_length_rule_witness :
    ((5000 : ℕ) ≠ 0) ∧ effectiveEpisodeLength 3000 (some 5000) = 5000 :=
  ⟨by decide, effective_episode_length_rule.2.2 3000 5000 (by decide)⟩

/-- Helper: inserting an element that is index-smaller than everything in the
list gives the same result under the source's non-strict by-score relation
and under the spec's explicit lexicographic tie-break relation. -/
lemma orderedInsert_agree (s : ℕ → ℚ) (a : ℕ) :
    ∀ l : List ℕ, (∀ b ∈ l, a < b) →
      List.orderedInsert (fun i j => s j ≤ s i) a l =
        List.orderedInsert (specTieRel s) a l := by
  intro l
  induction l with
  | nil => intro _; rfl
  | cons b l ih =>
    intro h
    have hab : a < b := h b (List.mem_cons_self b l)
    by_cases h1 : s b ≤ s a
    · have h2 : specTieRel s a b := by
        rcases eq_or_lt_of_le h1 with heq | hlt
        · exact Or.inr ⟨heq.symm, le_of_lt hab⟩
        · exact Or.inl hlt
      simp only [List.orderedInsert]
      rw [if_pos h1, if_pos h2]
    · have h2 : ¬ specTieRel s a b := by
        intro hc
        rcases hc with hlt | ⟨heq, _⟩
        · exact h1 (le_of_lt hlt)
        · exact h1 (le_of_eq heq.symm)
      simp only [List.orderedInsert]
      rw [if_neg h1, if_neg h2,
        ih (fun c hc => h c (List.mem_cons_of_mem b hc))]

/-- Helper: on a list of pairwise-increasing indices — such as
`List.range n`, where a tie in score always pairs an earlier index with a
later one — the source's stable descending sort and the spec's
lexicographically tie-broken sort coincide. -/
lemma insertionSort_agree (s : ℕ → ℚ) :
    ∀ l : List ℕ, List.Pairwise (· < ·) l →
      List.insertionSort (fun i j => s j ≤ s i) l =
        List.insertionSort (specTieRel s) l := by
  intro l
  induction l with
  | nil => intro _; rfl
  | cons a l ih =>
    intro hp
    rcases List.pairwise_cons.mp hp with ⟨ha, hl⟩
    simp only [List.insertionSort]
    have hmem : ∀ b ∈ List.insertionSort (fun i j => s j ≤ s i) l, a < b := by
      intro b hb
      exact ha b ((List.perm_insertionSort _ l).mem_iff.mp hb)
    rw [orderedInsert_agree s a _ hmem, ih hl]

/-- C5: the indices the training loop passes to the update are exactly the
top `num_best_deltas` indices under the score `max(r_pos, r_neg)`, sorted in
descending score order with ties between equal scores broken by the original
index ordering — the source's stable `sorted(..., reverse=True)[:num_best]`
equals the spec-side selection with the explicit tie-break relation. -/
theorem select_order_matches_spec (scores : ℕ → ℚ) (numDeltas numBest : ℕ) :
    ArsAgent.selectOrder scores numDeltas numBest =
      ArsAgent.specOrder scores numDeltas numBest := by
  unfold ArsAgent.selectOrder ArsAgent.specOrder
  rw [insertionSort_agree scores (List.range numDeltas)
    (List.pairwise_lt_range numDeltas)]

/-- Helper: whenever the explore loop returns, the accumulated total equals
the initial accumulator plus the sum of the clamped raw rewards of its
trace. -/
lemma exploreLoop_acc {σ : Type} {ni no : ℕ} (env : GymEnv σ ni no) (hp : Hp)
    (sqrtFn : ℚ → ℚ) (theta : Matrix (Fin no) (Fin ni) ℚ)
    (delta : Option (Matrix (Fin no) (Fin ni) ℚ))
    (direction : Option Direction) :
    ∀ (fuel : ℕ) (s : σ) (state : Fin ni → ℚ) (norm : Normalizer ni) (acc : ℚ)
      (res : ℚ × Normalizer ni × List ℚ),
      ArsAgent.exploreLoop env hp sqrtFn theta delta direction
        fuel s state norm acc = some res →
      res.1 = acc + (res.2.2.map clampReward).sum := by
  intro fuel
  induction fuel with
  | zero =>
    intro s state norm acc res h
    simp only [ArsAgent.exploreLoop] at h
    injection h with h
    subst h
    simp
  | succ fuel ih =>
    intro s state norm acc res h
    simp only [ArsAgent.exploreLoop] at h
    cases heval : Policy.evaluate hp theta
        (Normalizer.normalize sqrtFn (norm.observe state) state)
        delta direction with
    | none => rw [heval] at h; exact absurd h (by simp)
    | some action =>
      rw [heval] at h
      dsimp only at h
      by_cases hdone : (env.step s action).2.2.2 = true
      · rw [if_pos hdone] at h
        injection h with h
        subst h
        simp
      · rw [if_neg hdone] at h
        cases hrec : ArsAgent.exploreLoop env hp sqrtFn theta delta direction
            fuel (env.step s action).1 (env.step s action).2.1
            (norm.observe state)
            (acc + clampReward (env.step s action).2.2.1) with
        | none => rw [hrec] at h; exact absurd h (by simp)
        | some val =>
          rcases val with ⟨tot, nm, tr⟩
          rw [hrec] at h
          dsimp only at h
          injection h with h
          subst h
          have htot := ih (env.step s action).1 (env.step s action).2.1
            (norm.observe state)
            (acc + clampReward (env.step s action).2.2.1) (tot, nm, tr) hrec
          dsimp only at htot
          dsimp only
          rw [htot]
          simp [add_assoc]

/-- C9: whenever an `explore` rollout returns a result, the returned total is
exactly the sum of the per-step rewards with each one clamped to `[-1, 1]`
before being added; in particular a step reward of `5` contributes exactly
`1`. -/
theorem explore_reward_clamped_sum {σ : Type} {ni no : ℕ} (env : GymEnv σ ni no)
    (hp : Hp) (sqrtFn : ℚ → ℚ) (theta : Matrix (Fin no) (Fin ni) ℚ)
    (delta : Option (Matrix (Fin no) (Fin ni) ℚ))
    (direction : Option Direction) (norm : Normalizer ni)
    (res : ℚ × Normalizer ni × List ℚ)
    (h : ArsAgent.explore env hp sqrtFn theta delta direction norm = some res) :
    res.1 = (res.2.2.map clampReward).sum ∧ clampReward 5 = 1 := by
  constructor
  · have hacc := exploreLoop_acc env hp sqrtFn theta delta direction
      hp.episode_length env.reset.1 env.reset.2 norm 0 res h
    simpa using hacc
  · norm_num [clampReward, min_def, max_def]

theorem explore_reward_clamped_sum_witness :
    (ArsAgent.explore stubEnv hpStub (fun _ => 1)
        (0 : Matrix (Fin 1) (Fin 1) ℚ) none none (Normalizer.init 1) =
      some (0 + clampReward 5, normAfterStub, [5])) ∧
    ((0 + clampReward 5 : ℚ) = (([5] : List ℚ).map clampReward).sum ∧
      clampReward 5 = 1) :=
  ⟨by rfl,
    explore_reward_clamped_sum stubEnv hpStub (fun _ => 1) 0 none none
      (Normalizer.init 1) (0 + clampReward 5, normAfterStub, [5]) (by rfl)⟩

/-- Helper: the population variance of a list whose entries are all zero is
zero, so the population standard deviation of identical rewards is zero. -/
lemma popVar_eq_zero (l : List ℚ) (h : ∀ x ∈ l, x = 0) : popVar l = 0 := by
  have hsum : l.sum = 0 := List.sum_eq_zero h
  unfold popVar
  rw [hsum]
  have hmap : (l.map (fun x => (x - 0 / (l.length : ℚ)) ^ 2)).sum = 0 := by
    apply List.sum_eq_zero
    intro y hy
    rcases List.mem_map.mp hy with ⟨x, hx, rfl⟩
    rw [h x hx]
    norm_num
  rw [hmap, zero_div]

/-- C1: the degenerate-reward case is not detected by the code. When all
`2 * num_deltas` rollout rewards are identical (here: all zero, as produced
by the spec's stub environment), the population variance of the rewards is
zero, so `sigma_rewards = sqrt 0 = 0` — and the training iteration then
unconditionally calls `Policy.update`, whose scaling factor divides by
`num_best_deltas * 0 = 0`, a numeric fault (`none`), instead of skipping the
update and leaving the weights unchanged. -/
theorem train_degenerate_sigma_faults :
    popVar (List.replicate 4 (0:ℚ)) = 0 ∧
    (∀ (ni no : ℕ) (hp : Hp) (sqrtFn : ℚ → ℚ)
      (theta : Matrix (Fin no) (Fin ni) ℚ) (pos neg : ℕ → ℚ)
      (deltas : ℕ → Matrix (Fin no) (Fin ni) ℚ),
      sqrtFn 0 = 0 → (∀ k, pos k = 0) → (∀ k, neg k = 0) →
      ArsAgent.trainIteration hp sqrtFn theta pos neg deltas = none) := by
  constructor
  · exact popVar_eq_zero _ (fun x hx => List.eq_of_mem_replicate hx)
  · intro ni no hp sqrtFn theta pos neg deltas hsq hpos hneg
    have hvar : popVar ((List.range hp.num_deltas).map pos ++
        (List.range hp.num_deltas).map neg) = 0 := by
      apply popVar_eq_zero
      intro x hx
      rcases List.mem_append.mp hx with hx1 | hx1
      · rcases List.mem_map.mp hx1 with ⟨k, _, rfl⟩
        exact hpos k
      · rcases List.mem_map.mp hx1 with ⟨k, _, rfl⟩
        exact hneg k
    unfold ArsAgent.trainIteration
    simp only [popStd]
    rw [hvar, hsq]
    simp [Policy.update]

theorem train_degenerate_sigma_faults_witness :
    (id (0:ℚ) = 0) ∧ (∀ k : ℕ, (fun _ : ℕ => (0:ℚ)) k = 0) ∧
    ArsAgent.trainIteration hpScenario id (0 : Matrix (Fin 1) (Fin 1) ℚ)
      (fun _ => 0) (fun _ => 0) (fun _ => 0) = none :=
  ⟨rfl, fun _ => rfl,
    train_degenerate_sigma_faults.2 1 1 hpScenario id 0 (fun _ => 0)
      (fun _ => 0) (fun _ => 0) rfl (fun _ => rfl) (fun _ => rfl)⟩
